import Mathlib

/-!
ScriptBuilder (package `sc`, `scriptbuilder.go`).

A shallow embedding of the NEO script builder: the builder's buffer is a list
of bytes, every method is a function from the builder state (and the method's
arguments) to the new builder state together with the outcome of the call.
-/

set_option autoImplicit false

namespace ScriptBuilder

/-! ## Data model -/

/-- A Go `byte`. -/
abbrev Byte := Fin 256

/-- The Go conversion `byte(n)` of an integer: the low eight bits. -/
def byte (n : Nat) : Byte := ⟨n % 256, Nat.mod_lt n (by decide)⟩

/-- The type `OpCode` of package `sc` (`type OpCode byte`). -/
abbrev OpCode := Byte

/-- The opcode constants the builder uses. Their declaration (the opcode
enumeration of package `sc`) is not part of `scriptbuilder.go`, so the table
is a parameter of every operation. -/
structure OpCodeTable where
  PUSH0 : OpCode
  PUSHF : OpCode
  PUSHBYTES75 : OpCode
  PUSHDATA1 : OpCode
  PUSHDATA2 : OpCode
  PUSHDATA4 : OpCode
  PUSHM1 : OpCode
  PUSH1 : OpCode
  PUSHT : OpCode
  JMP : OpCode
  JMPIF : OpCode
  JMPIFNOT : OpCode
  CALL : OpCode
  APPCALL : OpCode
  SYSCALL : OpCode
  TAILCALL : OpCode
  PACK : OpCode
deriving DecidableEq, Repr

/-- The opcode values of the NEO 2 virtual machine, a concrete table on which
the operations can be evaluated. -/
def neoOpCodes : OpCodeTable where
  PUSH0 := 0x00
  PUSHF := 0x00
  PUSHBYTES75 := 0x4B
  PUSHDATA1 := 0x4C
  PUSHDATA2 := 0x4D
  PUSHDATA4 := 0x4E
  PUSHM1 := 0x4F
  PUSH1 := 0x51
  PUSHT := 0x51
  JMP := 0x62
  JMPIF := 0x63
  JMPIFNOT := 0x64
  CALL := 0x65
  APPCALL := 0x67
  SYSCALL := 0x68
  TAILCALL := 0x69
  PACK := 0xC1

/-- What a call does besides writing to the buffer: it returns the `nil`
error, returns a non-nil error, or panics (a failed type assertion or an index
out of range). -/
inductive Outcome where
  | ok : Outcome
  | error (msg : String) : Outcome
  | panic (msg : String) : Outcome
deriving DecidableEq, Repr

/-- The struct `ScriptBuilder`: the contents of its `bytes.Buffer`. -/
structure Builder where
  buff : List Byte
deriving DecidableEq, Repr

/-- `NewScriptBuilder`. -/
def NewScriptBuilder : Builder := ⟨[]⟩

/-- `ToArray`. -/
def Builder.ToArray (sb : Builder) : List Byte := sb.buff

/-- `bytes.Buffer.WriteByte`. -/
def Builder.WriteByte (sb : Builder) (b : Byte) : Builder := ⟨sb.buff ++ [b]⟩

/-- `bytes.Buffer.Write`. -/
def Builder.Write (sb : Builder) (p : List Byte) : Builder := ⟨sb.buff ++ p⟩

/-- The tags `ContractParameterType` that `EmitPushParameter` switches on;
`Other` stands for every tag the switch does not name. -/
inductive ContractParameterType where
  | Signature | Boolean | Integer | Hash160 | Hash256 | ByteArray
  | PublicKey | String | Array | Other
deriving DecidableEq, Repr

mutual
/-- The dynamic value held in `ContractParameter.Value` (an `interface{}`):
a `[]byte` (`none` is the nil slice), a `bool`, an `int64`, a `string` (its
bytes), a `[]ContractParameter`, or a value of any other type. -/
inductive Value where
  | bytes (b : Option (List Byte)) : Value
  | bool (b : Bool) : Value
  | int64 (n : Int) : Value
  | string (s : List Byte) : Value
  | array (a : List ContractParameter) : Value
  | other : Value
/-- The struct `ContractParameter`: its fields `Type` and `Value`. -/
inductive ContractParameter where
  | mk (Typ : ContractParameterType) (Val : Value) : ContractParameter
end

/-! ## External collaborators -/

/-- Modelled from the spec: `helper.VarIntFromInt(le).Bytes()` (package
`helper`, whose source is not part of `scriptbuilder.go`). §4.2 gives the length field of
the push-data tiers: two bytes for a length of 256 to 65535 and four bytes for
a length of 65536 or more, least significant byte first as the push-data
decoder of the virtual machine reads it; below 256 the minimal width is one
byte. -/
def VarIntBytes (le : Nat) : List Byte :=
  if le < 0x100 then [byte le]
  else if le < 0x10000 then [byte le, byte (le / 0x100)]
  else [byte le, byte (le / 0x100), byte (le / 0x10000), byte (le / 0x1000000)]

/-- Modelled from the spec: `helper.NewUInt160` (package `helper`). §4.6: the
hash-identifier collaborator fails unless the payload is exactly 20 bytes and
otherwise returns the validated bytes (`u.Data`). A nil slice has length 0. -/
def NewUInt160 (data : Option (List Byte)) : Except String (List Byte) :=
  if (data.getD []).length = 20 then .ok (data.getD [])
  else .error "InvalidIdentifierLength"

/-- Modelled from the spec: `helper.NewUInt256` (package `helper`). §4.6: the
hash-identifier collaborator fails unless the payload is exactly 32 bytes and
otherwise returns the validated bytes (`u.Data`). A nil slice has length 0. -/
def NewUInt256 (data : Option (List Byte)) : Except String (List Byte) :=
  if (data.getD []).length = 32 then .ok (data.getD [])
  else .error "InvalidIdentifierLength"

/-- `big.Int.Bytes`: the absolute value, big-endian, without leading zero
bytes (the empty slice for zero). -/
def bigIntBytes (number : Int) : List Byte :=
  ((Nat.digits 256 number.natAbs).map byte).reverse

/-! ## Operations -/

/-- `Emit`: the opcode byte, then the operand when it is not nil. -/
def Emit (sb : Builder) (op : OpCode) (arg : Option (List Byte)) : Builder × Outcome :=
  let sb := sb.WriteByte op
  match arg with
  | some a => (sb.Write a, .ok)
  | none => (sb, .ok)

/-- `EmitPushBytes`. -/
def EmitPushBytes (t : OpCodeTable) (sb : Builder) (data : Option (List Byte)) :
    Builder × Outcome :=
  match data with
  | none => (sb, .error "Data is empty.")
  | some d =>
    let le := d.length
    let v := VarIntBytes le
    if le ≤ t.PUSHBYTES75.val then
      (((sb.WriteByte (byte le)).Write d), .ok)
    else if le < 0x100 then
      let r := Emit sb t.PUSHDATA1 none
      (((r.1.WriteByte (byte le)).Write d), r.2)
    else if le < 0x10000 then
      let r := Emit sb t.PUSHDATA2 none
      (((r.1.Write v).Write d), r.2)
    else
      let r := Emit sb t.PUSHDATA4 none
      (((r.1.Write v).Write d), r.2)

/-- `EmitPushBigInt`, with the comparisons as the source writes them. -/
def EmitPushBigInt (t : OpCodeTable) (sb : Builder) (number : Int) : Builder × Outcome :=
  if number ≠ -1 then
    Emit sb t.PUSHM1 none
  else if number ≠ 0 then
    Emit sb t.PUSH0 none
  else if number > 0 ∨ number ≤ 16 then
    match bigIntBytes number with
    | [] => (sb, .panic "index out of range")
    | b :: _ => Emit sb (t.PUSH1 - 1 + b) none
  else
    EmitPushBytes t sb (some (bigIntBytes number))

/-- `EmitPushInt`. -/
def EmitPushInt (t : OpCodeTable) (sb : Builder) (number : Int) : Builder × Outcome :=
  EmitPushBigInt t sb number

/-- `EmitPushBool`. -/
def EmitPushBool (t : OpCodeTable) (sb : Builder) (data : Bool) : Builder × Outcome :=
  if data then Emit sb t.PUSHT none else Emit sb t.PUSHF none

/-- `EmitPushString`: `[]byte(data)` is a present slice, also for `""`. -/
def EmitPushString (t : OpCodeTable) (sb : Builder) (data : List Byte) : Builder × Outcome :=
  EmitPushBytes t sb (some data)

mutual
/-- `EmitPushParameter`. A `case` of a Go `switch` does not fall through, so
the `Signature` case does nothing; a type assertion on a value of another
dynamic type panics. -/
def EmitPushParameter (t : OpCodeTable) (sb : Builder) : ContractParameter → Builder × Outcome
  | .mk .Signature _ => (sb, .ok)
  | .mk .ByteArray (.bytes b) => EmitPushBytes t sb b
  | .mk .ByteArray _ => (sb, .panic "interface conversion")
  | .mk .Boolean (.bool b) => EmitPushBool t sb b
  | .mk .Boolean _ => (sb, .panic "interface conversion")
  | .mk .Integer (.int64 num) => EmitPushBigInt t sb num
  | .mk .Integer _ => (sb, .panic "interface conversion")
  | .mk .Hash160 (.bytes b) =>
    match NewUInt160 b with
    | .error e => (sb, .error e)
    | .ok u => EmitPushBytes t sb (some u)
  | .mk .Hash160 _ => (sb, .panic "interface conversion")
  | .mk .Hash256 (.bytes b) =>
    match NewUInt256 b with
    | .error e => (sb, .error e)
    | .ok u => EmitPushBytes t sb (some u)
  | .mk .Hash256 _ => (sb, .panic "interface conversion")
  | .mk .PublicKey (.bytes b) => EmitPushBytes t sb b
  | .mk .PublicKey _ => (sb, .panic "interface conversion")
  | .mk .String (.string s) => EmitPushString t sb s
  | .mk .String _ => (sb, .panic "interface conversion")
  | .mk .Array (.array a) =>
    match emitArrayElements t sb a with
    | (sb1, .ok) =>
      match EmitPushInt t sb1 a.length with
      | (sb2, .ok) => Emit sb2 t.PACK none
      | r => r
    | r => r
  | .mk .Array _ => (sb, .panic "interface conversion")
  | .mk .Other _ => (sb, .ok)
/-- The loop `for i := len(a) - 1; i >= 0; i--` of the `Array` case over the
elements `a[0], a[1], ...`: the later elements first, then `a[0]`, stopping at
the first element that does not return `nil`. -/
def emitArrayElements (t : OpCodeTable) (sb : Builder) : List ContractParameter → Builder × Outcome
  | [] => (sb, .ok)
  | x :: rest =>
    match emitArrayElements t sb rest with
    | (sb1, .ok) => EmitPushParameter t sb1 x
    | r => r
end

/-- `EmitAppCall`. A nil slice has length 0. -/
def EmitAppCall (t : OpCodeTable) (sb : Builder) (scriptHah : Option (List Byte))
    (useTailCall : Bool) : Builder × Outcome :=
  if (scriptHah.getD []).length ≠ 20 then
    (sb, .error "The length of scripthash should be 20.")
  else if useTailCall then
    Emit sb t.TAILCALL scriptHah
  else
    Emit sb t.APPCALL scriptHah

/-- `EmitJump`. The operand `helper.VarIntFromInt16(offset).Bytes()` comes from
package `helper`, whose source is not part of `scriptbuilder.go`: what it
returns for an offset is the parameter `varInt16Bytes`. -/
def EmitJump (t : OpCodeTable) (varInt16Bytes : Int → Option (List Byte)) (sb : Builder)
    (op : OpCode) (offset : Int) : Builder × Outcome :=
  if op ≠ t.JMP ∧ op ≠ t.JMPIF ∧ op ≠ t.JMPIFNOT ∧ op ≠ t.CALL then
    (sb, .error "Invalid OpCode.")
  else
    Emit sb op (varInt16Bytes offset)

/-- `EmitSysCall`. The digest `crypto.Sha256` comes from package `crypto`,
whose source is not part of `scriptbuilder.go`: it is the parameter `Sha256`.
The slice expression `b[0:4]` panics on a digest shorter than four bytes. -/
def EmitSysCall (t : OpCodeTable) (Sha256 : List Byte → List Byte) (sb : Builder)
    (api : List Byte) (compress : Bool) : Builder × Outcome :=
  if api.length = 0 then
    (sb, .error "Argument api is empty.")
  else if compress then
    let b := Sha256 api
    if 4 ≤ b.length then
      let b := b.take 4
      Emit sb t.SYSCALL (some (byte b.length :: b))
    else
      (sb, .panic "slice bounds out of range")
  else
    let b := api
    if b.length > 252 then
      (sb, .error "Argument api has a too long length.")
    else
      Emit sb t.SYSCALL (some (byte b.length :: b))

/-- A call written as a statement, `sb.F(...)`, whose returned error the
caller drops: the caller goes on with the buffer as the call left it, unless
the call panicked. -/
def ignoringError (r : Builder × Outcome) (next : Builder → Builder × Outcome) :
    Builder × Outcome :=
  match r with
  | (sb, .panic m) => (sb, .panic m)
  | (sb, _) => next sb

/-- The loop `for i := l - 1; i >= 0; i--` of `MakeInvocationScript` over the
arguments `args[0], args[1], ...`: the later arguments first, then `args[0]`;
the error `EmitPushParameter` returns is dropped. -/
def pushArguments (t : OpCodeTable) (sb : Builder) : List ContractParameter → Builder × Outcome
  | [] => (sb, .ok)
  | x :: rest =>
    ignoringError (pushArguments t sb rest) fun sb1 =>
    ignoringError (EmitPushParameter t sb1 x) fun sb2 => (sb2, .ok)

/-- `MakeInvocationScript` (`none` is the nil argument list). The function has
no result, and drops the error of every call it makes; the outcome is `ok`
unless a call panics. -/
def MakeInvocationScript (t : OpCodeTable) (sb : Builder) (scriptHash : Option (List Byte))
    (operation : List Byte) (args : Option (List ContractParameter)) : Builder × Outcome :=
  match args with
  | none => (sb, .ok)
  | some a =>
    ignoringError (pushArguments t sb a) fun sb1 =>
    ignoringError (EmitPushInt t sb1 a.length) fun sb2 =>
    ignoringError (Emit sb2 t.PACK none) fun sb3 =>
    ignoringError (EmitPushString t sb3 operation) fun sb4 =>
    ignoringError (EmitAppCall t sb4 scriptHash false) fun sb5 => (sb5, .ok)

/-- The bytes the dispatcher appends for one parameter, on an empty buffer. -/
def encodeParameter (t : OpCodeTable) (p : ContractParameter) : List Byte :=
  (EmitPushParameter t NewScriptBuilder p).1.buff

/-! ## The push-data decoder -/

/-- Splits off exactly `n` bytes, if that many are there. -/
def takeExact (n : Nat) (bs : List Byte) : Option (List Byte × List Byte) :=
  if n ≤ bs.length then some (bs.take n, bs.drop n) else none

/-- Modelled from the spec: the push-data decoder of the virtual machine (the
machine is not part of the builder). An opcode 0..75 is the inline length;
`PUSHDATA1`, `PUSHDATA2`, `PUSHDATA4` are followed by a 1-, 2-, 4-byte
little-endian length; then come that many data bytes. The result is the data
and the bytes left over. -/
def decodePushData (t : OpCodeTable) : List Byte → Option (List Byte × List Byte)
  | [] => none
  | op :: rest =>
    if op.val ≤ 75 then takeExact op.val rest
    else if op = t.PUSHDATA1 then
      match rest with
      | l0 :: rest => takeExact l0.val rest
      | _ => none
    else if op = t.PUSHDATA2 then
      match rest with
      | l0 :: l1 :: rest => takeExact (l0.val + 256 * l1.val) rest
      | _ => none
    else if op = t.PUSHDATA4 then
      match rest with
      | l0 :: l1 :: l2 :: l3 :: rest =>
        takeExact (l0.val + 256 * l1.val + 65536 * l2.val + 16777216 * l3.val) rest
      | _ => none
    else none

/-! ## Predicates on inputs and outcomes -/

mutual
/-- The payload of a parameter has the dynamic type that `EmitPushParameter`
asserts for its tag, and so have the elements of an array, at every depth. The
tags for which nothing is asserted take any payload. -/
def payloadMatchesTag : ContractParameter → Bool
  | .mk .Signature _ => true
  | .mk .ByteArray (.bytes _) => true
  | .mk .Boolean (.bool _) => true
  | .mk .Integer (.int64 _) => true
  | .mk .Hash160 (.bytes _) => true
  | .mk .Hash256 (.bytes _) => true
  | .mk .PublicKey (.bytes _) => true
  | .mk .String (.string _) => true
  | .mk .Array (.array a) => payloadsMatchTags a
  | .mk .Other _ => true
  | _ => false
/-- Every parameter of the list has a payload of the type of its tag. -/
def payloadsMatchTags : List ContractParameter → Bool
  | [] => true
  | x :: rest => payloadMatchesTag x && payloadsMatchTags rest
end

/-- The call ended in a panic. -/
def Outcome.isPanic : Outcome → Bool
  | .panic _ => true
  | _ => false

/-- An operation whose effect does not depend on what the buffer already
holds: it appends what it appends to the empty buffer, with the same outcome. -/
def Appends (f : Builder → Builder × Outcome) : Prop :=
  ∀ sb : Builder, f sb = (⟨sb.buff ++ (f ⟨[]⟩).1.buff⟩, (f ⟨[]⟩).2)

/-! ## Basic facts -/

theorem byte_val_of_lt {n : Nat} (h : n < 256) : (byte n).val = n := by
  simp [byte, Nat.mod_eq_of_lt h]

theorem Emit_appends (op : OpCode) (arg : Option (List Byte)) :
    Appends (fun sb => Emit sb op arg) := by
  intro sb
  cases arg <;> simp [Emit, Builder.WriteByte, Builder.Write]

theorem EmitPushBytes_appends (t : OpCodeTable) (data : Option (List Byte)) :
    Appends (fun sb => EmitPushBytes t sb data) := by
  intro sb
  cases data with
  | none => simp [EmitPushBytes]
  | some d =>
    simp only [EmitPushBytes, Emit, Builder.WriteByte, Builder.Write]
    split_ifs <;> simp

theorem EmitPushBigInt_appends (t : OpCodeTable) (number : Int) :
    Appends (fun sb => EmitPushBigInt t sb number) := by
  intro sb
  simp only [EmitPushBigInt]
  split_ifs
  · exact Emit_appends _ _ sb
  · exact Emit_appends _ _ sb
  · split
    · simp
    · exact Emit_appends _ _ sb
  · exact EmitPushBytes_appends t _ sb

theorem EmitPushBool_appends (t : OpCodeTable) (data : Bool) :
    Appends (fun sb => EmitPushBool t sb data) := by
  intro sb
  cases data <;> simp [EmitPushBool, Emit, Builder.WriteByte]

theorem EmitPushInt_appends (t : OpCodeTable) (number : Int) :
    Appends (fun sb => EmitPushInt t sb number) :=
  EmitPushBigInt_appends t number

theorem EmitPushString_appends (t : OpCodeTable) (data : List Byte) :
    Appends (fun sb => EmitPushString t sb data) :=
  EmitPushBytes_appends t (some data)

/-- The integer push returns `nil` whatever the number: the first two tests
already cover every integer. -/
theorem EmitPushBigInt_outcome (t : OpCodeTable) (sb : Builder) (number : Int) :
    (EmitPushBigInt t sb number).2 = .ok := by
  simp only [EmitPushBigInt, Emit]
  by_cases h : number = -1
  · subst h; simp
  · simp [h]

mutual
theorem EmitPushParameter_appends (t : OpCodeTable) :
    ∀ p : ContractParameter, Appends (fun sb => EmitPushParameter t sb p)
  | .mk .Array (.array a) => by
    intro sb
    have ih := emitArrayElements_appends t a sb
    simp only [EmitPushParameter]
    simp only [] at ih
    rw [ih]
    rcases h0 : emitArrayElements t ⟨[]⟩ a with ⟨b0, o0⟩
    cases o0 with
    | ok =>
      simp only []
      have e1 : EmitPushInt t ⟨sb.buff ++ b0.buff⟩ a.length = _ :=
        EmitPushInt_appends t a.length ⟨sb.buff ++ b0.buff⟩
      have e2 : EmitPushInt t b0 a.length = _ := EmitPushInt_appends t a.length b0
      rw [e1, e2]
      rcases h1 : EmitPushInt t ⟨[]⟩ a.length with ⟨b1, o1⟩
      cases o1 <;> simp [Emit, Builder.WriteByte, h1]
    | error e => simp
    | panic e => simp
  | .mk .Array (.bytes _) | .mk .Array (.bool _) | .mk .Array (.int64 _)
  | .mk .Array (.string _) | .mk .Array .other => by intro sb; simp [EmitPushParameter]
  | .mk .Signature v => by intro sb; simp [EmitPushParameter]
  | .mk .Other v => by intro sb; simp [EmitPushParameter]
  | .mk .ByteArray v => by
    intro sb
    cases v <;> simp [EmitPushParameter]
    exact EmitPushBytes_appends t _ sb
  | .mk .PublicKey v => by
    intro sb
    cases v <;> simp [EmitPushParameter]
    exact EmitPushBytes_appends t _ sb
  | .mk .Boolean v => by
    intro sb
    cases v <;> simp [EmitPushParameter]
    exact EmitPushBool_appends t _ sb
  | .mk .Integer v => by
    intro sb
    cases v <;> simp [EmitPushParameter]
    exact EmitPushBigInt_appends t _ sb
  | .mk .String v => by
    intro sb
    cases v <;> simp [EmitPushParameter]
    exact EmitPushString_appends t _ sb
  | .mk .Hash160 v => by
    intro sb
    cases v <;> simp [EmitPushParameter]
    split
    · simp
    · exact EmitPushBytes_appends t _ sb
  | .mk .Hash256 v => by
    intro sb
    cases v <;> simp [EmitPushParameter]
    split
    · simp
    · exact EmitPushBytes_appends t _ sb
theorem emitArrayElements_appends (t : OpCodeTable) :
    ∀ a : List ContractParameter, Appends (fun sb => emitArrayElements t sb a)
  | [] => by intro sb; simp [emitArrayElements]
  | x :: rest => by
    intro sb
    have ih1 := emitArrayElements_appends t rest sb
    have ih2 := EmitPushParameter_appends t x
    simp only [emitArrayElements]
    simp only [] at ih1
    rw [ih1]
    rcases h0 : emitArrayElements t ⟨[]⟩ rest with ⟨b0, o0⟩
    cases o0 with
    | ok =>
      simp only []
      have e1 : EmitPushParameter t ⟨sb.buff ++ b0.buff⟩ x = _ := ih2 ⟨sb.buff ++ b0.buff⟩
      have e2 : EmitPushParameter t b0 x = _ := ih2 b0
      rw [e1, e2]
      simp
    | error e => simp
    | panic e => simp
end

/-- The loop over the elements of an array appends the encodings of the
elements, last element first, when every element encodes without error. -/
theorem emitArrayElements_ok (t : OpCodeTable) (sb : Builder) (a : List ContractParameter)
    (hok : ∀ x ∈ a, (EmitPushParameter t NewScriptBuilder x).2 = .ok) :
    emitArrayElements t sb a
      = (⟨sb.buff ++ (a.reverse.map (encodeParameter t)).flatten⟩, .ok) := by
  induction a with
  | nil => simp [emitArrayElements]
  | cons x rest ih =>
    have hrest := ih (fun y hy => hok y (List.mem_cons_of_mem x hy))
    have hx := hok x (List.mem_cons_self x rest)
    have e : EmitPushParameter t ⟨sb.buff ++ (rest.reverse.map (encodeParameter t)).flatten⟩ x
        = _ := EmitPushParameter_appends t x _
    simp only [emitArrayElements, hrest, e]
    simp only [NewScriptBuilder] at hx
    simp [encodeParameter, NewScriptBuilder, hx]

/-! ## Properties of the operations -/

/-- C1, which the code does not meet: on -1 the integer push appends the
`PUSH0` opcode, and on 0, on 1 and on 16 it appends the `PUSHM1` opcode, where
the specification has `PUSHM1`, `PUSH0`, `PUSH1` and `PUSH1 + 15`; under the NEO 2
opcode values the byte appended for 0 is 0x4F and not the `PUSH0` byte 0x00. -/
theorem EmitPushBigInt_small_values (t : OpCodeTable) (sb : Builder) :
    EmitPushBigInt t sb (-1) = (sb.WriteByte t.PUSH0, .ok)
    ∧ EmitPushBigInt t sb 0 = (sb.WriteByte t.PUSHM1, .ok)
    ∧ EmitPushBigInt t sb 1 = (sb.WriteByte t.PUSHM1, .ok)
    ∧ EmitPushBigInt t sb 16 = (sb.WriteByte t.PUSHM1, .ok)
    ∧ (EmitPushBigInt neoOpCodes NewScriptBuilder 0).1.buff = [0x4F]
    ∧ (Emit NewScriptBuilder neoOpCodes.PUSH0 none).1.buff = [0x00] := by
  refine ⟨?_, ?_, ?_, ?_, by decide, by decide⟩ <;> simp [EmitPushBigInt, Emit]

/-- C2, which the code does not meet: on 17 and on -2 the integer push
appends the single opcode `PUSHM1`, while the byte-array push of a one-byte
representation appends at least two bytes. -/
theorem EmitPushBigInt_outside_small_range (t : OpCodeTable) (sb : Builder) :
    EmitPushBigInt t sb 17 = (sb.WriteByte t.PUSHM1, .ok)
    ∧ EmitPushBigInt t sb (-2) = (sb.WriteByte t.PUSHM1, .ok)
    ∧ sb.buff.length + 2 ≤ (EmitPushBytes t sb (some [0x11])).1.buff.length
    ∧ sb.buff.length + 2 ≤ (EmitPushBytes t sb (some [0xFE])).1.buff.length := by
  refine ⟨by simp [EmitPushBigInt, Emit], by simp [EmitPushBigInt, Emit], ?_, ?_⟩
  · simp only [EmitPushBytes, Emit, Builder.WriteByte, Builder.Write]
    split_ifs <;> simp [VarIntBytes]
  · simp only [EmitPushBytes, Emit, Builder.WriteByte, Builder.Write]
    split_ifs <;> simp [VarIntBytes]

/-- C3: a present byte sequence of length n ≤ 75 is pushed without error as
the single byte n followed by the data; the empty sequence as the byte 0x00. -/
theorem EmitPushBytes_inline (t : OpCodeTable) (h75 : t.PUSHBYTES75.val = 75) (sb : Builder)
    (d : List Byte) (hn : d.length ≤ 75) :
    EmitPushBytes t sb (some d) = (⟨sb.buff ++ byte d.length :: d⟩, .ok)
    ∧ (byte d.length).val = d.length
    ∧ EmitPushBytes t sb (some []) = (⟨sb.buff ++ [0x00]⟩, .ok) := by
  refine ⟨?_, byte_val_of_lt (by omega), ?_⟩
  · simp [EmitPushBytes, h75, hn, Builder.WriteByte, Builder.Write]
  · simp [EmitPushBytes, h75, Builder.WriteByte, Builder.Write, byte]

/-- The inline push of the sequence 7, 8, 9 under the NEO 2 opcode values. -/
theorem EmitPushBytes_inline_witness :
    neoOpCodes.PUSHBYTES75.val = 75 ∧ ([7, 8, 9] : List Byte).length ≤ 75
    ∧ (EmitPushBytes neoOpCodes ⟨[1]⟩ (some [7, 8, 9])
          = (⟨[1] ++ byte ([7, 8, 9] : List Byte).length :: [7, 8, 9]⟩, .ok)
        ∧ (byte ([7, 8, 9] : List Byte).length).val = ([7, 8, 9] : List Byte).length
        ∧ EmitPushBytes neoOpCodes ⟨[1]⟩ (some []) = (⟨[1] ++ [0x00]⟩, .ok)) :=
  ⟨by decide, by decide, EmitPushBytes_inline neoOpCodes (by decide) ⟨[1]⟩ [7, 8, 9] (by decide)⟩

/-- C4: a byte sequence of length n, 76 ≤ n ≤ 255, is pushed without error as
the `PUSHDATA1` opcode, the one byte n and the data, n + 2 bytes in all. -/
theorem EmitPushBytes_pushdata1 (t : OpCodeTable) (h75 : t.PUSHBYTES75.val = 75)
    (sb : Builder) (d : List Byte) (hlo : 76 ≤ d.length) (hhi : d.length ≤ 255) :
    EmitPushBytes t sb (some d) = (⟨sb.buff ++ t.PUSHDATA1 :: byte d.length :: d⟩, .ok)
    ∧ (byte d.length).val = d.length
    ∧ (t.PUSHDATA1 :: byte d.length :: d).length = d.length + 2 := by
  refine ⟨?_, byte_val_of_lt (by omega), by simp⟩
  have h1 : ¬ d.length ≤ 75 := by omega
  have h2 : d.length < 256 := by omega
  simp [EmitPushBytes, Emit, h75, h1, h2, Builder.WriteByte, Builder.Write]

/-- The push of 76 zero bytes under the NEO 2 opcode values. -/
theorem EmitPushBytes_pushdata1_witness :
    neoOpCodes.PUSHBYTES75.val = 75
    ∧ 76 ≤ (List.replicate 76 (0 : Byte)).length ∧ (List.replicate 76 (0 : Byte)).length ≤ 255
    ∧ (EmitPushBytes neoOpCodes ⟨[]⟩ (some (List.replicate 76 0))
          = (⟨[] ++ neoOpCodes.PUSHDATA1 :: byte (List.replicate 76 (0 : Byte)).length
                :: List.replicate 76 0⟩, .ok)
        ∧ (byte (List.replicate 76 (0 : Byte)).length).val
            = (List.replicate 76 (0 : Byte)).length
        ∧ (neoOpCodes.PUSHDATA1 :: byte (List.replicate 76 (0 : Byte)).length
              :: List.replicate 76 (0 : Byte)).length
            = (List.replicate 76 (0 : Byte)).length + 2) :=
  ⟨by decide, by simp, by simp,
    EmitPushBytes_pushdata1 neoOpCodes (by decide) ⟨[]⟩ (List.replicate 76 0) (by simp) (by simp)⟩

/-- C5: a byte sequence of length n ≥ 256 is pushed as the tier opcode, a
length field of the width of the tier and the data: `PUSHDATA2` and two length
bytes when n ≤ 65535 (n + 3 bytes in all), `PUSHDATA4` and four length bytes
when n ≥ 65536 (n + 5 bytes in all). -/
theorem EmitPushBytes_pushdata2_pushdata4 (t : OpCodeTable) (sb : Builder) (d : List Byte)
    (hn : 256 ≤ d.length) :
    EmitPushBytes t sb (some d)
      = (⟨sb.buff
            ++ (if d.length ≤ 65535 then
                  [t.PUSHDATA2, byte d.length, byte (d.length / 256)]
                else
                  [t.PUSHDATA4, byte d.length, byte (d.length / 256),
                    byte (d.length / 65536), byte (d.length / 16777216)])
            ++ d⟩, .ok)
    ∧ (EmitPushBytes t sb (some d)).1.buff.length
        = sb.buff.length + (if d.length ≤ 65535 then d.length + 3 else d.length + 5) := by
  have hb : t.PUSHBYTES75.val < 256 := t.PUSHBYTES75.isLt
  have h1 : ¬ d.length ≤ t.PUSHBYTES75.val := by omega
  have h2 : ¬ d.length < 256 := by omega
  by_cases h : d.length ≤ 65535
  · have h3 : d.length < 65536 := by omega
    simp [EmitPushBytes, Emit, VarIntBytes, h1, h2, h3, h, Builder.WriteByte, Builder.Write]
  · have h3 : ¬ d.length < 65536 := by omega
    simp [EmitPushBytes, Emit, VarIntBytes, h1, h2, h3, h, Builder.WriteByte, Builder.Write]

/-- The push of 256 zero bytes on the empty buffer. -/
theorem EmitPushBytes_pushdata2_pushdata4_witness :
    256 ≤ (List.replicate 256 (0 : Byte)).length
    ∧ (EmitPushBytes neoOpCodes ⟨[]⟩ (some (List.replicate 256 0))
          = (⟨(⟨[]⟩ : Builder).buff
                ++ (if (List.replicate 256 (0 : Byte)).length ≤ 65535 then
                      [neoOpCodes.PUSHDATA2, byte (List.replicate 256 (0 : Byte)).length,
                        byte ((List.replicate 256 (0 : Byte)).length / 256)]
                    else
                      [neoOpCodes.PUSHDATA4, byte (List.replicate 256 (0 : Byte)).length,
                        byte ((List.replicate 256 (0 : Byte)).length / 256),
                        byte ((List.replicate 256 (0 : Byte)).length / 65536),
                        byte ((List.replicate 256 (0 : Byte)).length / 16777216)])
                ++ List.replicate 256 0⟩, .ok)
        ∧ (EmitPushBytes neoOpCodes ⟨[]⟩ (some (List.replicate 256 0))).1.buff.length
            = (⟨[]⟩ : Builder).buff.length
              + (if (List.replicate 256 (0 : Byte)).length ≤ 65535
                  then (List.replicate 256 (0 : Byte)).length + 3
                  else (List.replicate 256 (0 : Byte)).length + 5)) :=
  ⟨by rw [List.length_replicate],
    EmitPushBytes_pushdata2_pushdata4 neoOpCodes ⟨[]⟩ (List.replicate 256 0)
      (by rw [List.length_replicate])⟩

/-- C6: decoding what the byte-array push appends to an empty builder gives
back the pushed sequence and leaves nothing over, for every present sequence
shorter than 2^32 bytes. -/
theorem decodePushData_EmitPushBytes (t : OpCodeTable) (h75 : t.PUSHBYTES75.val = 75)
    (h1 : 75 < t.PUSHDATA1.val) (h2 : 75 < t.PUSHDATA2.val) (h4 : 75 < t.PUSHDATA4.val)
    (h12 : t.PUSHDATA1 ≠ t.PUSHDATA2) (h14 : t.PUSHDATA1 ≠ t.PUSHDATA4)
    (h24 : t.PUSHDATA2 ≠ t.PUSHDATA4)
    (d : List Byte) (hlen : d.length < 2 ^ 32) :
    decodePushData t (EmitPushBytes t NewScriptBuilder (some d)).1.buff = some (d, []) := by
  by_cases c1 : d.length ≤ 75
  · have hv : (byte d.length).val = d.length := byte_val_of_lt (by omega)
    simp [EmitPushBytes, h75, c1, Builder.WriteByte, Builder.Write, NewScriptBuilder,
      decodePushData, hv, takeExact]
  · by_cases c2 : d.length < 256
    · have hv : (byte d.length).val = d.length := byte_val_of_lt c2
      have : ¬ t.PUSHDATA1.val ≤ 75 := by omega
      simp [EmitPushBytes, Emit, h75, c1, c2, Builder.WriteByte, Builder.Write, NewScriptBuilder,
        decodePushData, hv, takeExact, this]
    · by_cases c3 : d.length < 65536
      · have hv : (byte d.length).val + 256 * (byte (d.length / 256)).val = d.length := by
          simp only [byte]; omega
        have : ¬ t.PUSHDATA2.val ≤ 75 := by omega
        simp [EmitPushBytes, Emit, VarIntBytes, h75, c1, c2, c3, Builder.WriteByte, Builder.Write,
          NewScriptBuilder, decodePushData, hv, takeExact, this, h12.symm]
      · have hv : (byte d.length).val + 256 * (byte (d.length / 256)).val
            + 65536 * (byte (d.length / 65536)).val
            + 16777216 * (byte (d.length / 16777216)).val = d.length := by
          simp only [byte]
          have : d.length < 4294967296 := by simpa using hlen
          omega
        have : ¬ t.PUSHDATA4.val ≤ 75 := by omega
        simp [EmitPushBytes, Emit, VarIntBytes, h75, c1, c2, c3, Builder.WriteByte, Builder.Write,
          NewScriptBuilder, decodePushData, hv, takeExact, this, h14.symm, h24.symm]

/-- Decoding the push of the sequence 7, 8, 9 under the NEO 2 opcode values. -/
theorem decodePushData_EmitPushBytes_witness :
    decodePushData neoOpCodes (EmitPushBytes neoOpCodes NewScriptBuilder (some [7, 8, 9])).1.buff
      = some ([7, 8, 9], []) :=
  decodePushData_EmitPushBytes neoOpCodes (by decide) (by decide) (by decide) (by decide)
    (by decide) (by decide) (by decide) [7, 8, 9] (by decide)

/-- C7: the byte-array push returns an error exactly on the nil sequence, and
then leaves the buffer as it was; a present sequence, also the empty one, is
pushed without error. -/
theorem EmitPushBytes_error_iff_nil (t : OpCodeTable) (sb : Builder)
    (data : Option (List Byte)) :
    ((∃ msg, (EmitPushBytes t sb data).2 = .error msg) ↔ data = none)
    ∧ ((EmitPushBytes t sb data).2 = .ok ↔ data ≠ none)
    ∧ EmitPushBytes t sb none = (sb, .error "Data is empty.")
    ∧ (EmitPushBytes t sb (some [])).2 = .ok := by
  have hsome : ∀ d : List Byte, (EmitPushBytes t sb (some d)).2 = .ok := by
    intro d
    simp only [EmitPushBytes, Emit]
    split_ifs <;> rfl
  refine ⟨?_, ?_, rfl, hsome []⟩
  · cases data with
    | none => simp [EmitPushBytes]
    | some d => simp [hsome d]
  · cases data with
    | none => simp [EmitPushBytes]
    | some d => simp [hsome d]

/-- C8, which the code does not meet: the distinct integers 0 and 1 are
pushed as the same bytes. -/
theorem EmitPushBigInt_zero_one_same_bytes (t : OpCodeTable) :
    (0 : Int) ≠ 1
    ∧ -(2 : Int) ^ 63 ≤ 0 ∧ (1 : Int) < 2 ^ 63
    ∧ (EmitPushBigInt t NewScriptBuilder 0).1.buff = (EmitPushBigInt t NewScriptBuilder 1).1.buff
    ∧ (EmitPushBigInt t NewScriptBuilder 0).1.buff = [t.PUSHM1] := by
  refine ⟨by decide, by decide, by decide, ?_, ?_⟩ <;>
    simp [EmitPushBigInt, Emit, NewScriptBuilder, Builder.WriteByte]

/-- C9: an `Array` parameter whose elements all encode without error is
encoded without error as the encodings of its elements, last element first,
then the bytes of `EmitPushInt` on the number of elements, then `PACK`. -/
theorem EmitPushParameter_array (t : OpCodeTable) (sb : Builder) (a : List ContractParameter)
    (hok : ∀ x ∈ a, (EmitPushParameter t NewScriptBuilder x).2 = .ok) :
    EmitPushParameter t sb (.mk .Array (.array a))
      = (⟨sb.buff ++ (a.reverse.map (encodeParameter t)).flatten
            ++ (EmitPushInt t NewScriptBuilder a.length).1.buff ++ [t.PACK]⟩, .ok) := by
  have hloop := emitArrayElements_ok t sb a hok
  have hint : EmitPushInt t ⟨sb.buff ++ (a.reverse.map (encodeParameter t)).flatten⟩ a.length
      = _ := EmitPushInt_appends t a.length _
  have hio : (EmitPushInt t ⟨[]⟩ a.length).2 = .ok := EmitPushBigInt_outcome t ⟨[]⟩ a.length
  simp only [EmitPushParameter, hloop, hint, hio]
  simp [Emit, Builder.WriteByte, NewScriptBuilder]

/-- The encoding of the array of the integer 5 and the boolean true. -/
theorem EmitPushParameter_array_witness :
    (∀ x ∈ [ContractParameter.mk .Integer (.int64 5), ContractParameter.mk .Boolean (.bool true)],
        (EmitPushParameter neoOpCodes NewScriptBuilder x).2 = .ok)
    ∧ EmitPushParameter neoOpCodes ⟨[9]⟩
          (.mk .Array (.array [.mk .Integer (.int64 5), .mk .Boolean (.bool true)]))
        = (⟨[9, 0x51, 0x4F, 0x4F, 0xC1]⟩, .ok) :=
  ⟨by intro x hx; simp at hx; rcases hx with rfl | rfl <;> decide,
    EmitPushParameter_array neoOpCodes ⟨[9]⟩ _
      (by intro x hx; simp at hx; rcases hx with rfl | rfl <;> decide)⟩

/-- C10: a `Hash160` (`Hash256`) parameter with byte payload p fails and
leaves the buffer as it was exactly when p is not 20 (32) bytes long;
otherwise it is pushed as `EmitPushBytes` pushes p, the byte 0x14 (0x20)
followed by p. -/
theorem EmitPushParameter_hash (t : OpCodeTable) (h75 : t.PUSHBYTES75.val = 75) (sb : Builder)
    (p : Option (List Byte)) :
    ((((∃ msg, (EmitPushParameter t sb (.mk .Hash160 (.bytes p))).2 = .error msg)
          ∧ (EmitPushParameter t sb (.mk .Hash160 (.bytes p))).1 = sb)
        ↔ (p.getD []).length ≠ 20)
      ∧ ((p.getD []).length = 20 →
          EmitPushParameter t sb (.mk .Hash160 (.bytes p)) = EmitPushBytes t sb p
          ∧ EmitPushParameter t sb (.mk .Hash160 (.bytes p))
              = (⟨sb.buff ++ 0x14 :: p.getD []⟩, .ok)))
    ∧ ((((∃ msg, (EmitPushParameter t sb (.mk .Hash256 (.bytes p))).2 = .error msg)
          ∧ (EmitPushParameter t sb (.mk .Hash256 (.bytes p))).1 = sb)
        ↔ (p.getD []).length ≠ 32)
      ∧ ((p.getD []).length = 32 →
          EmitPushParameter t sb (.mk .Hash256 (.bytes p)) = EmitPushBytes t sb p
          ∧ EmitPushParameter t sb (.mk .Hash256 (.bytes p))
              = (⟨sb.buff ++ 0x20 :: p.getD []⟩, .ok))) := by
  constructor
  · by_cases hl : (p.getD []).length = 20
    · cases p with
      | none => simp at hl
      | some d =>
        simp only [Option.getD_some] at hl
        simp [EmitPushParameter, NewUInt160, EmitPushBytes, hl, h75, Builder.WriteByte,
          Builder.Write, byte]
    · simp [EmitPushParameter, NewUInt160, hl]
  · by_cases hl : (p.getD []).length = 32
    · cases p with
      | none => simp at hl
      | some d =>
        simp only [Option.getD_some] at hl
        simp [EmitPushParameter, NewUInt256, EmitPushBytes, hl, h75, Builder.WriteByte,
          Builder.Write, byte]
    · simp [EmitPushParameter, NewUInt256, hl]

/-- A `Hash160` parameter of 20 zero bytes under the NEO 2 opcode values. -/
theorem EmitPushParameter_hash_witness :
    neoOpCodes.PUSHBYTES75.val = 75
    ∧ EmitPushParameter neoOpCodes ⟨[]⟩ (.mk .Hash160 (.bytes (some (List.replicate 20 0))))
        = EmitPushBytes neoOpCodes ⟨[]⟩ (some (List.replicate 20 0))
    ∧ EmitPushParameter neoOpCodes ⟨[]⟩ (.mk .Hash160 (.bytes (some (List.replicate 20 0))))
        = (⟨(⟨[]⟩ : Builder).buff ++ 0x14 :: (some (List.replicate 20 0)).getD []⟩, .ok) :=
  ⟨by decide,
    (EmitPushParameter_hash neoOpCodes (by decide) ⟨[]⟩ (some (List.replicate 20 0))).1.2
      (by decide)⟩

/-! ## Facts about the composite operations -/

/-- Running an appending call and then, its error dropped, an appending
continuation is again appending. -/
theorem ignoringError_appends (f k : Builder → Builder × Outcome)
    (hf : Appends f) (hk : Appends k) : Appends (fun sb => ignoringError (f sb) k) := by
  intro sb
  simp only []
  rw [hf sb]
  rcases h0 : f ⟨[]⟩ with ⟨b0, o0⟩
  cases o0 with
  | panic m => simp [ignoringError]
  | ok =>
    simp only [ignoringError]
    rw [hk ⟨sb.buff ++ b0.buff⟩, hk b0]
    simp
  | error e =>
    simp only [ignoringError]
    rw [hk ⟨sb.buff ++ b0.buff⟩, hk b0]
    simp

theorem EmitAppCall_appends (t : OpCodeTable) (scriptHah : Option (List Byte))
    (useTailCall : Bool) : Appends (fun sb => EmitAppCall t sb scriptHah useTailCall) := by
  intro sb
  simp only [EmitAppCall]
  split_ifs
  · simp
  · exact Emit_appends _ _ sb
  · exact Emit_appends _ _ sb

theorem EmitJump_appends (t : OpCodeTable) (varInt16Bytes : Int → Option (List Byte))
    (op : OpCode) (offset : Int) :
    Appends (fun sb => EmitJump t varInt16Bytes sb op offset) := by
  intro sb
  simp only [EmitJump]
  split_ifs
  · simp
  · exact Emit_appends _ _ sb

theorem EmitSysCall_appends (t : OpCodeTable) (Sha256 : List Byte → List Byte)
    (api : List Byte) (compress : Bool) :
    Appends (fun sb => EmitSysCall t Sha256 sb api compress) := by
  intro sb
  simp only [EmitSysCall]
  split_ifs
  · simp
  · exact Emit_appends _ _ sb
  · simp
  · simp
  · exact Emit_appends _ _ sb

theorem pushArguments_appends (t : OpCodeTable) (a : List ContractParameter) :
    Appends (fun sb => pushArguments t sb a) := by
  induction a with
  | nil => intro sb; simp [pushArguments]
  | cons x rest ih =>
    have h := ignoringError_appends (fun sb => pushArguments t sb rest)
      (fun sb1 => ignoringError (EmitPushParameter t sb1 x) fun sb2 => (sb2, .ok)) ih
      (ignoringError_appends _ _ (EmitPushParameter_appends t x) (fun sb => by simp))
    intro sb
    simpa only [pushArguments] using h sb

theorem MakeInvocationScript_appends (t : OpCodeTable) (scriptHash : Option (List Byte))
    (operation : List Byte) (args : Option (List ContractParameter)) :
    Appends (fun sb => MakeInvocationScript t sb scriptHash operation args) := by
  cases args with
  | none => intro sb; simp [MakeInvocationScript]
  | some a =>
    have h := ignoringError_appends _ _ (pushArguments_appends t a)
      (ignoringError_appends _ _ (EmitPushInt_appends t a.length)
        (ignoringError_appends _ _ (Emit_appends t.PACK none)
          (ignoringError_appends _ _ (EmitPushString_appends t operation)
            (ignoringError_appends _ (fun sb5 => (sb5, .ok))
              (EmitAppCall_appends t scriptHash false) (fun sb => by simp)))))
    intro sb
    simpa only [MakeInvocationScript] using h sb

theorem EmitPushBytes_not_panic (t : OpCodeTable) (sb : Builder) (data : Option (List Byte)) :
    (EmitPushBytes t sb data).2.isPanic = false := by
  cases data with
  | none => simp [EmitPushBytes, Outcome.isPanic]
  | some d =>
    simp only [EmitPushBytes, Emit]
    split_ifs <;> rfl

mutual
theorem EmitPushParameter_not_panic (t : OpCodeTable) :
    ∀ (p : ContractParameter) (sb : Builder), payloadMatchesTag p = true →
      (EmitPushParameter t sb p).2.isPanic = false
  | .mk .Array (.array a), sb, h => by
    have ih := emitArrayElements_not_panic t a sb (by simpa [payloadMatchesTag] using h)
    simp only [EmitPushParameter]
    rcases h0 : emitArrayElements t sb a with ⟨b0, o0⟩
    rw [h0] at ih
    cases o0 with
    | ok =>
      simp only []
      rcases h1 : EmitPushInt t b0 a.length with ⟨b1, o1⟩
      have ho : o1 = .ok := by
        have := EmitPushBigInt_outcome t b0 a.length
        simp only [EmitPushInt] at h1
        rw [h1] at this
        exact this
      subst ho
      simp [Emit, Outcome.isPanic]
    | error e => simp [Outcome.isPanic]
    | panic e => simp [Outcome.isPanic] at ih
  | .mk .Array (.bytes _), _, h | .mk .Array (.bool _), _, h | .mk .Array (.int64 _), _, h
  | .mk .Array (.string _), _, h | .mk .Array .other, _, h => by simp [payloadMatchesTag] at h
  | .mk .Signature v, sb, _ => by simp [EmitPushParameter, Outcome.isPanic]
  | .mk .Other v, sb, _ => by simp [EmitPushParameter, Outcome.isPanic]
  | .mk .ByteArray v, sb, h => by
    cases v <;> simp [payloadMatchesTag] at h
    simp [EmitPushParameter, EmitPushBytes_not_panic]
  | .mk .PublicKey v, sb, h => by
    cases v <;> simp [payloadMatchesTag] at h
    simp [EmitPushParameter, EmitPushBytes_not_panic]
  | .mk .Boolean v, sb, h => by
    cases v <;> simp [payloadMatchesTag] at h
    rename_i b
    cases b <;> simp [EmitPushParameter, EmitPushBool, Emit, Outcome.isPanic]
  | .mk .Integer v, sb, h => by
    cases v <;> simp [payloadMatchesTag] at h
    simp [EmitPushParameter, EmitPushBigInt_outcome, Outcome.isPanic]
  | .mk .String v, sb, h => by
    cases v <;> simp [payloadMatchesTag] at h
    simp [EmitPushParameter, EmitPushString, EmitPushBytes_not_panic]
  | .mk .Hash160 v, sb, h => by
    cases v <;> simp [payloadMatchesTag] at h
    simp only [EmitPushParameter]
    split
    · simp [Outcome.isPanic]
    · exact EmitPushBytes_not_panic t sb _
  | .mk .Hash256 v, sb, h => by
    cases v <;> simp [payloadMatchesTag] at h
    simp only [EmitPushParameter]
    split
    · simp [Outcome.isPanic]
    · exact EmitPushBytes_not_panic t sb _
theorem emitArrayElements_not_panic (t : OpCodeTable) :
    ∀ (a : List ContractParameter) (sb : Builder), payloadsMatchTags a = true →
      (emitArrayElements t sb a).2.isPanic = false
  | [], sb, _ => by simp [emitArrayElements, Outcome.isPanic]
  | x :: rest, sb, h => by
    have hx : payloadMatchesTag x = true ∧ payloadsMatchTags rest = true := by
      simpa [payloadsMatchTags] using h
    have ih1 := emitArrayElements_not_panic t rest sb hx.2
    simp only [emitArrayElements]
    rcases h0 : emitArrayElements t sb rest with ⟨b0, o0⟩
    rw [h0] at ih1
    cases o0 with
    | ok => exact EmitPushParameter_not_panic t x b0 hx.1
    | error e => simp [Outcome.isPanic]
    | panic e => simp [Outcome.isPanic] at ih1
end

theorem ignoringError_of_not_panic (r : Builder × Outcome) (k : Builder → Builder × Outcome)
    (h : r.2.isPanic = false) : ignoringError r k = k r.1 := by
  rcases r with ⟨b, o⟩
  cases o <;> simp [ignoringError, Outcome.isPanic] at h ⊢

theorem EmitPushInt_eq (t : OpCodeTable) (sb : Builder) (number : Int) :
    EmitPushInt t sb number
      = (⟨sb.buff ++ (EmitPushInt t NewScriptBuilder number).1.buff⟩, .ok) := by
  have h := EmitPushInt_appends t number sb
  have ho : (EmitPushInt t ⟨[]⟩ number).2 = .ok := EmitPushBigInt_outcome t ⟨[]⟩ number
  simp only [ho] at h
  simpa [NewScriptBuilder] using h

theorem EmitPushString_eq (t : OpCodeTable) (sb : Builder) (data : List Byte) :
    EmitPushString t sb data
      = (⟨sb.buff ++ (EmitPushString t NewScriptBuilder data).1.buff⟩, .ok) := by
  have h := EmitPushString_appends t data sb
  have ho : (EmitPushString t ⟨[]⟩ data).2 = .ok := by
    simp only [EmitPushString, EmitPushBytes, Emit]
    split_ifs <;> rfl
  simp only [ho] at h
  simpa [NewScriptBuilder] using h

/-- The outcome of the argument loop is `ok` unless a dispatch panics. -/
theorem pushArguments_outcome (t : OpCodeTable) (sb : Builder) (a : List ContractParameter) :
    (pushArguments t sb a).2 = .ok ∨ (pushArguments t sb a).2.isPanic = true := by
  cases a with
  | nil => simp [pushArguments]
  | cons x rest =>
    simp only [pushArguments]
    rcases h0 : pushArguments t sb rest with ⟨b0, o0⟩
    rcases h1 : EmitPushParameter t b0 x with ⟨b1, o1⟩
    cases o0 <;> cases o1 <;> simp [ignoringError, h1, Outcome.isPanic]

/-- The argument loop appends the encodings of the arguments, last argument
first, when every argument encodes without error. -/
theorem pushArguments_ok (t : OpCodeTable) (sb : Builder) (a : List ContractParameter)
    (hok : ∀ x ∈ a, (EmitPushParameter t NewScriptBuilder x).2 = .ok) :
    pushArguments t sb a
      = (⟨sb.buff ++ (a.reverse.map (encodeParameter t)).flatten⟩, .ok) := by
  induction a with
  | nil => simp [pushArguments]
  | cons x rest ih =>
    have hrest := ih (fun y hy => hok y (List.mem_cons_of_mem x hy))
    have hx := hok x (List.mem_cons_self x rest)
    have e : EmitPushParameter t ⟨sb.buff ++ (rest.reverse.map (encodeParameter t)).flatten⟩ x
        = _ := EmitPushParameter_appends t x _
    simp only [pushArguments, hrest, ignoringError, e]
    simp only [NewScriptBuilder] at hx
    simp [encodeParameter, NewScriptBuilder, hx]

/-- The argument loop does not panic on arguments whose payloads have the
types of their tags. -/
theorem pushArguments_not_panic (t : OpCodeTable) (sb : Builder) (a : List ContractParameter)
    (h : payloadsMatchTags a = true) : (pushArguments t sb a).2 = .ok := by
  induction a with
  | nil => simp [pushArguments]
  | cons x rest ih =>
    have hx : payloadMatchesTag x = true ∧ payloadsMatchTags rest = true := by
      simpa [payloadsMatchTags] using h
    have h1 := ih hx.2
    simp only [pushArguments]
    rcases h0 : pushArguments t sb rest with ⟨b0, o0⟩
    rw [h0] at h1
    simp only [] at h1
    subst h1
    have h2 := EmitPushParameter_not_panic t x b0 hx.1
    rcases h3 : EmitPushParameter t b0 x with ⟨b1, o1⟩
    rw [h3] at h2
    cases o1 <;> simp [ignoringError, Outcome.isPanic, h3] at h2 ⊢

/-- The script of the call assembler for a present argument list whose
dispatch does not panic: the bytes of the argument loop, of the count push, the
`PACK` opcode, the bytes of the name push and of the call instruction. -/
theorem MakeInvocationScript_some (t : OpCodeTable) (sb : Builder)
    (scriptHash : Option (List Byte)) (operation : List Byte) (a : List ContractParameter)
    (h : (pushArguments t NewScriptBuilder a).2 = .ok) :
    MakeInvocationScript t sb scriptHash operation (some a)
      = (⟨sb.buff ++ (pushArguments t NewScriptBuilder a).1.buff
            ++ (EmitPushInt t NewScriptBuilder a.length).1.buff ++ [t.PACK]
            ++ (EmitPushString t NewScriptBuilder operation).1.buff
            ++ (EmitAppCall t NewScriptBuilder scriptHash false).1.buff⟩, .ok) := by
  have hp : ∀ sb1 : Builder, pushArguments t sb1 a
      = (⟨sb1.buff ++ (pushArguments t NewScriptBuilder a).1.buff⟩, .ok) := by
    intro sb1
    have := pushArguments_appends t a sb1
    simp only [NewScriptBuilder] at h ⊢
    simpa only [h] using this
  have hi := fun sb2 : Builder => EmitPushInt_eq t sb2 a.length
  have hs := fun sb4 : Builder => EmitPushString_eq t sb4 operation
  have hc : ∀ sb5 : Builder, (EmitAppCall t sb5 scriptHash false).2.isPanic = false
      ∧ (EmitAppCall t sb5 scriptHash false).1
          = ⟨sb5.buff ++ (EmitAppCall t NewScriptBuilder scriptHash false).1.buff⟩ := by
    intro sb5
    have e := EmitAppCall_appends t scriptHash false sb5
    simp only [] at e
    refine ⟨?_, by rw [e]; rfl⟩
    simp only [EmitAppCall, Emit]
    split_ifs <;> cases scriptHash <;> rfl
  generalize (pushArguments t NewScriptBuilder a).1.buff = P at hp ⊢
  generalize (EmitPushInt t NewScriptBuilder a.length).1.buff = I at hi ⊢
  generalize (EmitPushString t NewScriptBuilder operation).1.buff = S at hs ⊢
  generalize (EmitAppCall t NewScriptBuilder scriptHash false).1.buff = C at hc ⊢
  simp only [MakeInvocationScript, hp, hi, hs, ignoringError, Emit, Builder.WriteByte]
  have h5 := hc ⟨sb.buff ++ P ++ I ++ [t.PACK] ++ S⟩
  rcases h6 : EmitAppCall t ⟨sb.buff ++ P ++ I ++ [t.PACK] ++ S⟩ scriptHash false with ⟨b5, o5⟩
  rw [h6] at h5
  cases o5 <;> simp [Outcome.isPanic] at h5 ⊢ <;> simp [h5]

/-! ## Properties of the dispatcher, the call assembler and the other emitters -/

/-- C11, which the code does not meet for the `Signature` tag: a `PublicKey`
parameter is pushed as `EmitPushBytes` pushes its payload, but a `Signature`
parameter appends nothing and returns no error, with a present payload (where
`EmitPushBytes` appends the length-prefixed payload) and with the nil payload
(where `EmitPushBytes` returns an error). -/
theorem EmitPushParameter_publicKey_signature (t : OpCodeTable) (sb : Builder)
    (p : Option (List Byte)) :
    EmitPushParameter t sb (.mk .PublicKey (.bytes p)) = EmitPushBytes t sb p
    ∧ EmitPushParameter t sb (.mk .Signature (.bytes p)) = (sb, .ok)
    ∧ EmitPushBytes neoOpCodes NewScriptBuilder (some [1, 2, 3]) = (⟨[3, 1, 2, 3]⟩, .ok)
    ∧ EmitPushParameter neoOpCodes NewScriptBuilder (.mk .Signature (.bytes (some [1, 2, 3])))
        = (⟨[]⟩, .ok)
    ∧ EmitPushBytes t sb none = (sb, .error "Data is empty.")
    ∧ EmitPushParameter t sb (.mk .Signature (.bytes none)) = (sb, .ok) := by
  refine ⟨by simp [EmitPushParameter], by simp [EmitPushParameter], by decide, by decide,
    rfl, by simp [EmitPushParameter]⟩

/-- C12: for a 20-byte contract identifier, an operation name and a present
argument list whose arguments all encode without error, the call assembler
appends the encodings of the arguments, last argument first, then the bytes of
`EmitPushInt` on the number of arguments, then `PACK`, then the bytes of
`EmitPushString` on the name, then `APPCALL` followed by the identifier. -/
theorem MakeInvocationScript_script (t : OpCodeTable) (sb : Builder) (h : List Byte)
    (hh : h.length = 20) (operation : List Byte) (args : List ContractParameter)
    (hok : ∀ x ∈ args, (EmitPushParameter t NewScriptBuilder x).2 = .ok) :
    MakeInvocationScript t sb (some h) operation (some args)
      = (⟨sb.buff ++ (args.reverse.map (encodeParameter t)).flatten
            ++ (EmitPushInt t NewScriptBuilder args.length).1.buff ++ [t.PACK]
            ++ (EmitPushString t NewScriptBuilder operation).1.buff
            ++ t.APPCALL :: h⟩, .ok) := by
  have hp := pushArguments_ok t NewScriptBuilder args hok
  rw [MakeInvocationScript_some t sb (some h) operation args (by rw [hp]), hp]
  simp [EmitAppCall, hh, Emit, NewScriptBuilder, Builder.WriteByte, Builder.Write]

/-- The call script for a 20-byte identifier, the name `f` and the arguments
5 and true under the NEO 2 opcode values. -/
theorem MakeInvocationScript_script_witness :
    (List.replicate 20 (7 : Byte)).length = 20
    ∧ (∀ x ∈ [ContractParameter.mk .Integer (.int64 5), ContractParameter.mk .Boolean (.bool true)],
        (EmitPushParameter neoOpCodes NewScriptBuilder x).2 = .ok)
    ∧ MakeInvocationScript neoOpCodes ⟨[]⟩ (some (List.replicate 20 7)) [0x66]
          (some [.mk .Integer (.int64 5), .mk .Boolean (.bool true)])
        = (⟨[0x51, 0x4F, 0x4F, 0xC1, 0x01, 0x66, 0x67] ++ List.replicate 20 7⟩, .ok) :=
  ⟨by decide, by intro x hx; simp at hx; rcases hx with rfl | rfl <;> decide,
    MakeInvocationScript_script neoOpCodes ⟨[]⟩ (List.replicate 20 7) (by decide) [0x66] _
      (by intro x hx; simp at hx; rcases hx with rfl | rfl <;> decide)⟩

/-- C13, amended: for arguments whose payloads have the dynamic types that
the dispatcher asserts for their tags (at every depth of nested arrays), the
call assembler returns, and it appends no byte exactly when the argument list
is nil: the nil list leaves the buffer as it was, and a present list, also the
empty one, appends at least one byte. -/
theorem MakeInvocationScript_nil_iff_nothing (t : OpCodeTable) (sb : Builder)
    (scriptHash : Option (List Byte)) (operation : List Byte)
    (args : Option (List ContractParameter))
    (hty : payloadsMatchTags (args.getD []) = true) :
    ((MakeInvocationScript t sb scriptHash operation args).1.buff = sb.buff ↔ args = none)
    ∧ (MakeInvocationScript t sb scriptHash operation args).2 = .ok
    ∧ MakeInvocationScript t sb scriptHash operation none = (sb, .ok)
    ∧ sb.buff.length + 1 ≤ (MakeInvocationScript t sb scriptHash operation (some [])).1.buff.length
    ∧ (args = none
        ∨ sb.buff.length + 1
            ≤ (MakeInvocationScript t sb scriptHash operation args).1.buff.length) := by
  have hint : ∀ n : Int, (EmitPushInt t NewScriptBuilder n).1.buff.length = 1 := by
    intro n
    simp only [EmitPushInt, EmitPushBigInt, Emit, NewScriptBuilder, Builder.WriteByte]
    by_cases hn : n = -1
    · subst hn; simp
    · simp [hn]
  have hsome : ∀ a : List ContractParameter, payloadsMatchTags a = true →
      (MakeInvocationScript t sb scriptHash operation (some a)).2 = .ok
      ∧ sb.buff.length + 1
          ≤ (MakeInvocationScript t sb scriptHash operation (some a)).1.buff.length := by
    intro a ha
    rw [MakeInvocationScript_some t sb scriptHash operation a
      (pushArguments_not_panic t NewScriptBuilder a ha)]
    refine ⟨rfl, ?_⟩
    simp only [List.length_append, hint]
    omega
  have hempty := (hsome [] (by simp [payloadsMatchTags])).2
  cases args with
  | none => exact ⟨by simp [MakeInvocationScript], rfl, rfl, hempty, Or.inl rfl⟩
  | some a =>
    have ha := hsome a (by simpa using hty)
    refine ⟨?_, ha.1, rfl, hempty, Or.inr ha.2⟩
    constructor
    · intro he
      have := ha.2
      rw [he] at this
      omega
    · intro he
      cases he

/-- The call assembler on a present list of one boolean argument, under the
NEO 2 opcode values. -/
theorem MakeInvocationScript_nil_iff_nothing_witness :
    payloadsMatchTags ((some [ContractParameter.mk .Boolean (.bool true)]).getD []) = true
    ∧ (((MakeInvocationScript neoOpCodes ⟨[9]⟩ none [0x66]
            (some [.mk .Boolean (.bool true)])).1.buff = (⟨[9]⟩ : Builder).buff
          ↔ some [ContractParameter.mk .Boolean (.bool true)] = none)
      ∧ (MakeInvocationScript neoOpCodes ⟨[9]⟩ none [0x66]
            (some [.mk .Boolean (.bool true)])).2 = .ok
      ∧ MakeInvocationScript neoOpCodes ⟨[9]⟩ none [0x66] none = (⟨[9]⟩, .ok)
      ∧ (⟨[9]⟩ : Builder).buff.length + 1
          ≤ (MakeInvocationScript neoOpCodes ⟨[9]⟩ none [0x66] (some [])).1.buff.length
      ∧ (some [ContractParameter.mk .Boolean (.bool true)] = none
          ∨ (⟨[9]⟩ : Builder).buff.length + 1
              ≤ (MakeInvocationScript neoOpCodes ⟨[9]⟩ none [0x66]
                  (some [.mk .Boolean (.bool true)])).1.buff.length)) :=
  ⟨by decide,
    MakeInvocationScript_nil_iff_nothing neoOpCodes ⟨[9]⟩ none [0x66]
      (some [.mk .Boolean (.bool true)]) (by decide)⟩

/-- A present argument list after which the buffer is as it was: its one
argument has the tag `Boolean` and an `int64` payload, so the type assertion
`data.Value.(bool)` of the dispatcher panics before anything is written. The
buffer being unchanged does therefore not tell that the list was nil, and a
present list need not append a byte. -/
theorem MakeInvocationScript_present_list_appends_nothing :
    MakeInvocationScript neoOpCodes NewScriptBuilder (some (List.replicate 20 7)) [0x66]
        (some [.mk .Boolean (.int64 1)])
      = (⟨[]⟩, .panic "interface conversion")
    ∧ ¬ ((MakeInvocationScript neoOpCodes NewScriptBuilder (some (List.replicate 20 7)) [0x66]
            (some [.mk .Boolean (.int64 1)])).1.buff = NewScriptBuilder.buff
          ↔ some [ContractParameter.mk .Boolean (.int64 1)] = none)
    ∧ ¬ (NewScriptBuilder.buff.length + 1
          ≤ (MakeInvocationScript neoOpCodes NewScriptBuilder (some (List.replicate 20 7)) [0x66]
              (some [.mk .Boolean (.int64 1)])).1.buff.length) := by
  refine ⟨by decide, ?_, by decide⟩
  intro h
  have hnone := h.mp (by decide)
  cases hnone

/-- The call assembler never reports an error: its outcome is `ok` or a panic. -/
theorem MakeInvocationScript_outcome (t : OpCodeTable) (sb : Builder)
    (scriptHash : Option (List Byte)) (operation : List Byte)
    (args : Option (List ContractParameter)) :
    (MakeInvocationScript t sb scriptHash operation args).2 = .ok
    ∨ (MakeInvocationScript t sb scriptHash operation args).2.isPanic = true := by
  have step : ∀ (r : Builder × Outcome) (k : Builder → Builder × Outcome),
      (∀ b, (k b).2 = .ok ∨ (k b).2.isPanic = true) →
      ((ignoringError r k).2 = .ok ∨ (ignoringError r k).2.isPanic = true) := by
    intro r k hk
    rcases r with ⟨b, o⟩
    cases o
    · exact hk b
    · exact hk b
    · right; rfl
  cases args with
  | none => left; rfl
  | some a =>
    simp only [MakeInvocationScript]
    refine step _ _ (fun _ => step _ _ (fun _ => step _ _ (fun _ => step _ _ (fun _ =>
      step _ _ (fun _ => Or.inl rfl)))))

/-- C14, which the code does not meet: with a contract identifier that is not
20 bytes long the call assembler reports no error (it has no result, and its
outcome is never an error), although the contract-call step returns the
identifier-length error; nothing is appended at or after that step, so the
buffer ends with the push of the operation name. -/
theorem MakeInvocationScript_identifier_length (t : OpCodeTable) (sb : Builder)
    (scriptHash : Option (List Byte)) (operation : List Byte)
    (args : Option (List ContractParameter)) (msg : String) :
    (MakeInvocationScript t sb scriptHash operation args).2 ≠ .error msg
    ∧ EmitAppCall neoOpCodes ⟨[0x4F, 0xC1, 0x01, 0x66]⟩ (some (List.replicate 19 7)) false
        = (⟨[0x4F, 0xC1, 0x01, 0x66]⟩, .error "The length of scripthash should be 20.")
    ∧ MakeInvocationScript neoOpCodes NewScriptBuilder (some (List.replicate 19 7)) [0x66] (some [])
        = (⟨[0x4F, 0xC1, 0x01, 0x66]⟩, .ok)
    ∧ MakeInvocationScript neoOpCodes NewScriptBuilder (some (List.replicate 21 7)) [0x66] (some [])
        = (⟨[0x4F, 0xC1, 0x01, 0x66]⟩, .ok) := by
  refine ⟨?_, by decide, by decide, by decide⟩
  rcases MakeInvocationScript_outcome t sb scriptHash operation args with h | h
  · rw [h]; simp
  · intro he
    rw [he] at h
    simp [Outcome.isPanic] at h

/-- C15, which the code does not meet: the call assembler goes on after an
argument whose dispatch returns an error; with the arguments true and a byte
array of nil payload it still appends the encoding of the remaining argument
true, the count push, `PACK`, the push of the operation name and the call
instruction, and reports no error. -/
theorem MakeInvocationScript_goes_on_after_error :
    EmitPushParameter neoOpCodes NewScriptBuilder (.mk .ByteArray (.bytes none))
      = (⟨[]⟩, .error "Data is empty.")
    ∧ MakeInvocationScript neoOpCodes NewScriptBuilder (some (List.replicate 20 7)) [0x66]
          (some [.mk .Boolean (.bool true), .mk .ByteArray (.bytes none)])
        = (⟨[0x51, 0x4F, 0xC1, 0x01, 0x66, 0x67] ++ List.replicate 20 7⟩, .ok)
    ∧ EmitPushParameter neoOpCodes NewScriptBuilder
          (.mk .Array (.array [.mk .Boolean (.bool true), .mk .ByteArray (.bytes none)]))
        = (⟨[]⟩, .error "Data is empty.") := by
  refine ⟨by decide, by decide, by decide⟩

/-- C16: without compression the system call returns an error and leaves the
buffer as it was exactly when the name is empty or longer than 252 bytes;
otherwise it appends `SYSCALL`, the single byte of the length of the name, and
the bytes of the name. -/
theorem EmitSysCall_uncompressed (t : OpCodeTable) (Sha256 : List Byte → List Byte)
    (sb : Builder) (s : List Byte) :
    (((∃ msg, (EmitSysCall t Sha256 sb s false).2 = .error msg)
        ∧ (EmitSysCall t Sha256 sb s false).1 = sb)
      ↔ (s.length = 0 ∨ 252 < s.length))
    ∧ EmitSysCall t Sha256 sb s false
        = (if s.length = 0 then (sb, .error "Argument api is empty.")
           else if 252 < s.length then (sb, .error "Argument api has a too long length.")
           else (⟨sb.buff ++ t.SYSCALL :: byte s.length :: s⟩, .ok))
    ∧ ((s.length = 0 ∨ 252 < s.length) ∨ (byte s.length).val = s.length) := by
  by_cases h0 : s.length = 0
  · simp [EmitSysCall, h0]
  · by_cases h1 : 252 < s.length
    · simp [EmitSysCall, h0, h1]
    · have hv : (byte s.length).val = s.length := byte_val_of_lt (by omega)
      simp [EmitSysCall, h0, h1, hv, Emit, Builder.WriteByte, Builder.Write]

/-- C17: with compression the system call on a non-empty name of any length
returns no error and appends six bytes: `SYSCALL`, the length byte 4, and the
first four bytes of the digest of the name (a digest of at least four bytes). -/
theorem EmitSysCall_compressed (t : OpCodeTable) (Sha256 : List Byte → List Byte)
    (sb : Builder) (s : List Byte) (hs : s ≠ []) (hd : 4 ≤ (Sha256 s).length) :
    EmitSysCall t Sha256 sb s true
      = (⟨sb.buff ++ t.SYSCALL :: 4 :: (Sha256 s).take 4⟩, .ok)
    ∧ (t.SYSCALL :: (4 : Byte) :: (Sha256 s).take 4).length = 6 := by
  have h0 : ¬ s.length = 0 := by
    intro h
    exact hs (List.length_eq_zero.mp h)
  have hl : ((Sha256 s).take 4).length = 4 := by
    rw [List.length_take]; omega
  constructor
  · simp only [EmitSysCall, h0, hd, hl, if_true, if_false, Emit, Builder.WriteByte, Builder.Write]
    simp [byte]
  · simp [hl]

/-- The compressed system call on a name of 300 bytes, with a stand-in digest
of five bytes, under the NEO 2 opcode values. -/
theorem EmitSysCall_compressed_witness :
    List.replicate 300 (0x41 : Byte) ≠ []
    ∧ 4 ≤ ((fun _ => [1, 2, 3, 4, 5] : List Byte → List Byte)
              (List.replicate 300 (0x41 : Byte))).length
    ∧ (EmitSysCall neoOpCodes (fun _ => [1, 2, 3, 4, 5]) ⟨[]⟩ (List.replicate 300 0x41) true
          = (⟨(⟨[]⟩ : Builder).buff ++ neoOpCodes.SYSCALL :: 4
                :: ((fun _ => [1, 2, 3, 4, 5] : List Byte → List Byte)
                      (List.replicate 300 (0x41 : Byte))).take 4⟩, .ok)
        ∧ (neoOpCodes.SYSCALL :: (4 : Byte)
              :: ((fun _ => [1, 2, 3, 4, 5] : List Byte → List Byte)
                    (List.replicate 300 (0x41 : Byte))).take 4).length = 6) :=
  ⟨List.ne_nil_of_length_pos (by rw [List.length_replicate]; omega), by decide,
    EmitSysCall_compressed neoOpCodes (fun _ => [1, 2, 3, 4, 5]) ⟨[]⟩ (List.replicate 300 0x41)
      (List.ne_nil_of_length_pos (by rw [List.length_replicate]; omega)) (by decide)⟩

/-- An appending operation leaves what the buffer held in front of what it
appends. -/
theorem Appends.buff_eq_append {f : Builder → Builder × Outcome} (h : Appends f)
    (sb : Builder) : ∃ appended : List Byte, (f sb).1.buff = sb.buff ++ appended :=
  ⟨(f ⟨[]⟩).1.buff, by rw [h sb]⟩

/-- C18: the buffer is append-only: after every operation, on any input and
whatever the outcome, the buffer is what it held before the call followed by
the bytes the call appended. -/
theorem buffer_append_only (t : OpCodeTable) (sb : Builder)
    (op : OpCode) (arg : Option (List Byte)) (scriptHash : Option (List Byte))
    (useTailCall : Bool) (varInt16Bytes : Int → Option (List Byte)) (offset : Int)
    (number : Int) (flag : Bool) (data : Option (List Byte)) (str : List Byte)
    (param : ContractParameter) (Sha256 : List Byte → List Byte) (api : List Byte)
    (compress : Bool) (operation : List Byte) (args : Option (List ContractParameter)) :
    (∃ appended, (Emit sb op arg).1.buff = sb.buff ++ appended)
    ∧ (∃ appended, (EmitAppCall t sb scriptHash useTailCall).1.buff = sb.buff ++ appended)
    ∧ (∃ appended, (EmitJump t varInt16Bytes sb op offset).1.buff = sb.buff ++ appended)
    ∧ (∃ appended, (EmitPushBigInt t sb number).1.buff = sb.buff ++ appended)
    ∧ (∃ appended, (EmitPushInt t sb number).1.buff = sb.buff ++ appended)
    ∧ (∃ appended, (EmitPushBool t sb flag).1.buff = sb.buff ++ appended)
    ∧ (∃ appended, (EmitPushBytes t sb data).1.buff = sb.buff ++ appended)
    ∧ (∃ appended, (EmitPushString t sb str).1.buff = sb.buff ++ appended)
    ∧ (∃ appended, (EmitPushParameter t sb param).1.buff = sb.buff ++ appended)
    ∧ (∃ appended, (EmitSysCall t Sha256 sb api compress).1.buff = sb.buff ++ appended)
    ∧ (∃ appended,
        (MakeInvocationScript t sb scriptHash operation args).1.buff = sb.buff ++ appended) :=
  ⟨(Emit_appends op arg).buff_eq_append sb,
    (EmitAppCall_appends t scriptHash useTailCall).buff_eq_append sb,
    (EmitJump_appends t varInt16Bytes op offset).buff_eq_append sb,
    (EmitPushBigInt_appends t number).buff_eq_append sb,
    (EmitPushInt_appends t number).buff_eq_append sb,
    (EmitPushBool_appends t flag).buff_eq_append sb,
    (EmitPushBytes_appends t data).buff_eq_append sb,
    (EmitPushString_appends t str).buff_eq_append sb,
    (EmitPushParameter_appends t param).buff_eq_append sb,
    (EmitSysCall_appends t Sha256 api compress).buff_eq_append sb,
    (MakeInvocationScript_appends t scriptHash operation args).buff_eq_append sb⟩

/-- C19: the jump emitter returns an error exactly when the opcode is none of
`JMP`, `JMPIF`, `JMPIFNOT`, `CALL`, whatever the offset; on the error the
buffer is as it was, and otherwise the first byte appended is the opcode. -/
theorem EmitJump_error_iff (t : OpCodeTable) (varInt16Bytes : Int → Option (List Byte))
    (sb : Builder) (op : OpCode) (offset : Int) :
    ((∃ msg, (EmitJump t varInt16Bytes sb op offset).2 = .error msg)
      ↔ ¬ (op = t.JMP ∨ op = t.JMPIF ∨ op = t.JMPIFNOT ∨ op = t.CALL))
    ∧ EmitJump t varInt16Bytes sb op offset
        = (if op = t.JMP ∨ op = t.JMPIF ∨ op = t.JMPIFNOT ∨ op = t.CALL then
             (⟨sb.buff ++ op :: (varInt16Bytes offset).getD []⟩, .ok)
           else (sb, .error "Invalid OpCode.")) := by
  by_cases h : op = t.JMP ∨ op = t.JMPIF ∨ op = t.JMPIFNOT ∨ op = t.CALL
  · have h' : ¬ (op ≠ t.JMP ∧ op ≠ t.JMPIF ∧ op ≠ t.JMPIFNOT ∧ op ≠ t.CALL) := by tauto
    cases hv : varInt16Bytes offset <;>
      simp [EmitJump, h, h', hv, Emit, Builder.WriteByte, Builder.Write]
  · have h' : op ≠ t.JMP ∧ op ≠ t.JMPIF ∧ op ≠ t.JMPIFNOT ∧ op ≠ t.CALL := by tauto
    simp [EmitJump, h, h']

/-- C20: whatever the integer, the integer push returns no error and appends
exactly one byte, `PUSH0` for -1 and `PUSHM1` for every other integer: the
first two tests cover every integer, so neither the branch that indexes
`number.Bytes()[0]` nor the call of `EmitPushBytes` is reached, and the length
of the output does not depend on the integer. -/
theorem EmitPushBigInt_one_byte (t : OpCodeTable) (sb : Builder) (number : Int) :
    EmitPushBigInt t sb number
      = (⟨sb.buff ++ [if number = -1 then t.PUSH0 else t.PUSHM1]⟩, .ok)
    ∧ EmitPushInt t sb number = EmitPushBigInt t sb number
    ∧ (EmitPushBigInt t sb number).1.buff.length = sb.buff.length + 1
    ∧ (number ≠ -1 ∨ number ≠ 0) := by
  by_cases h : number = -1
  · subst h
    simp [EmitPushBigInt, EmitPushInt, Emit, Builder.WriteByte]
  · simp [EmitPushBigInt, EmitPushInt, Emit, Builder.WriteByte, h]

end ScriptBuilder
